import Mathlib

/-!
Verification of the core of `scs.py`, a simple content-addressed store.

The source is Python 2, where `str` is a byte string; we embed byte strings
as `List Char`.  The storage backend (`FileStorage`) is a flat namespace of
named byte blobs; we embed it as a function from filenames to optional
contents.  The hash algorithm is configurable (`hashlib.new(algorithm)`); we
embed it as an abstract function `h` from byte strings to hexdigest strings,
together with the derived constant `hexlen` (`2 * digestsize` in the source).
Incremental hashing (`hash_total.update(block)` followed by
`hash_total.hexdigest()`) is embedded as applying `h` to the concatenation of
all bytes fed to the hash object.

Atomic commits in the source write a fresh uuid-named `*.tmp` file and then
rename it onto the final name; since the temporary name is fresh and
immediately renamed away, the net effect on the storage map is the creation
of the final name, which is how `Scs.store` is embedded here.
-/

/-- Byte strings (Python 2 `str`). -/
abbrev Str := List Char

/-- The storage backend: a flat map from filenames to file contents.
`none` means the file does not exist. -/
abbrev Storage := Str → Option Str

/-- Embeds `FileStorage.create`: create a file, overwriting a possibly existing one. -/
def Storage.insert (st : Storage) (filename : Str) (data : Str) : Storage :=
  fun n => if n = filename then some data else st n

/-- The empty storage: no files at all. -/
def scsEmpty : Storage := fun _ => none

/-- The `'.bin'` filename suffix of block files. -/
def binSuffix : Str := ['.', 'b', 'i', 'n']

/-- The `'.cat'` filename suffix of concatenation (catalog) files. -/
def catSuffix : Str := ['.', 'c', 'a', 't']

/-- The `'.tmp'` filename suffix of temporary files. -/
def tmpSuffix : Str := ['.', 't', 'm', 'p']

/-- The character class `[0-9a-f]` used by every filename regex in the
source: lowercase hexadecimal digits. -/
def isHexLower (c : Char) : Bool :=
  ('0' ≤ c && c ≤ '9') || ('a' ≤ c && c ≤ 'f')

/-- Python's `re` end anchor `$` (without `re.MULTILINE`) matches at the end
of the string or just before a newline that is the last character.  A
pattern of the form `^C+$` therefore matches a string exactly when the
string, after dropping one trailing newline if present, is a nonempty run
of `C` characters; `chompNewline` performs that dropping. -/
def chompNewline (s : Str) : Str :=
  if s.getLast? = some '\n' then s.dropLast else s

/-- Matching of a full-line Python regex `^C+$` for a character class `C`:
the string, less one trailing newline, is a nonempty run of `C`. -/
def lineAll (p : Char → Bool) (s : Str) : Bool :=
  !(chompNewline s).isEmpty && (chompNewline s).all p

/-- The character class `[0-9a-z.-]` of the `FileStorage._path` assertion. -/
def isPathChar (c : Char) : Bool :=
  ('0' ≤ c && c ≤ '9') || ('a' ≤ c && c ≤ 'z') || (c = '.') || (c = '-')

/-- The assertion `re.match('^[0-9a-z.-]+$', filename)` that `FileStorage._path`
makes before every backend access; a failing filename makes the backend
raise an `AssertionError` instead of performing the access. -/
def pathOk (s : Str) : Bool := lineAll isPathChar s

/-- The regex `^[0-9a-f]+\.(bin|cat)$` of `Scs.gc` and `Scs.check`: one or
more lowercase hex digits followed by `.bin` or `.cat`, where the final `$`
also matches before one trailing newline (Python semantics).  Since `'.'`
is not a hex digit, a string matches exactly when, after dropping one
trailing newline, its last four characters are `.bin` or `.cat` and
everything before them is a nonempty hex run. -/
def DataName (s : Str) : Prop :=
  5 ≤ (chompNewline s).length ∧
  ((chompNewline s).take ((chompNewline s).length - 4)).all isHexLower = true ∧
    ((chompNewline s).drop ((chompNewline s).length - 4) = binSuffix ∨
     (chompNewline s).drop ((chompNewline s).length - 4) = catSuffix)

instance (s : Str) : Decidable (DataName s) := by
  unfold DataName; infer_instance

/-- Consume exactly `n` lowercase hex digits from the front of a string,
returning the rest (`[0-9a-f]{n}` of the temporary-file regex). -/
def eatHex : Nat → Str → Option Str
  | 0, s => some s
  | _ + 1, [] => none
  | n + 1, c :: s => if isHexLower c then eatHex n s else none

/-- Consume a single `'-'` from the front of a string. -/
def eatDash : Str → Option Str
  | [] => none
  | c :: s => if c = '-' then some s else none

/-- The regex `^[0-9a-f]{8}-[0-9a-f]{4}-[0-9a-f]{4}-[0-9a-f]{4}-[0-9a-f]{12}\.tmp$`
used by `Scs.gc` and `Scs.check` to recognize temporary files: the textual
layout of `uuid.uuid4()` followed by `.tmp`, where the final `$` also
matches before one trailing newline (Python semantics), so a name of the
layout followed by `.tmp` and a final newline matches as well. -/
def uuidTmp (s : Str) : Bool :=
  match eatHex 8 (chompNewline s) >>= eatDash >>= eatHex 4 >>= eatDash >>=
        eatHex 4 >>= eatDash >>= eatHex 4 >>= eatDash >>= eatHex 12 with
  | some r => decide (r = tmpSuffix)
  | none => false

/-- The `Scs` class configuration: block size, hash algorithm (embedded as
the hexdigest function `h`), and the derived constant
`hexlen = 2 * digestsize`. -/
structure Scs where
  blocksize : Nat
  hexlen : Nat
  h : Str → Str

/-- The properties of a real hexdigest function that the source relies on:
every digest has length `hexlen` (`2 * digestsize`) and consists of
lowercase hexadecimal characters. -/
def HashGood (scs : Scs) : Prop :=
  ∀ s : Str, (scs.h s).length = scs.hexlen ∧ (scs.h s).all isHexLower = true

/-- One step of `input_io.read(self.blocksize)` chunking, with explicit fuel
(the fuel is the length of the remaining input, which bounds the number of
iterations since every successful read consumes at least one byte).
Mirrors the `while True` loop of `Scs.store`: read a block of at most
`blocksize` bytes and stop when the read returns the empty string. -/
def chunksGo (bs : Nat) : Nat → Str → List Str
  | 0, _ => []
  | fuel + 1, b =>
      if b.take bs = [] then []
      else b.take bs :: chunksGo bs fuel (b.drop bs)

/-- The list of blocks that `Scs.store` reads from an input stream holding
the bytes `b`, with the configured block size `bs`. -/
def chunksOf (bs : Nat) (b : Str) : List Str := chunksGo bs b.length b

/-- The catalog accumulated by `Scs.store`:
`cat += hexdigest + '\n'` for every block, in order. -/
def catListing (scs : Scs) (blocks : List Str) : Str :=
  (blocks.map (fun blk => scs.h blk ++ ['\n'])).flatten

/-- The body of the `while True` loop of `Scs.store`, iterated over the
blocks read from the input: accumulate the catalog `cat`, feed the block to
the running whole-stream hash (embedded as accumulating the bytes `acc`),
and create the block file `hexdigest + '.bin'` unless it already exists. -/
def storeLoop (scs : Scs) : List Str → Str → Str → Storage → Str × Str × Storage
  | [], cat, acc, st => (cat, acc, st)
  | blk :: rest, cat, acc, st =>
      let hexdigest := scs.h blk
      let filename := hexdigest ++ binSuffix
      let st2 := if (st filename).isSome then st else st.insert filename blk
      storeLoop scs rest (cat ++ hexdigest ++ ['\n']) (acc ++ blk) st2

/-- Embeds `Scs.store`: store a new bin.  Reads the input in blocks, writes each
missing block file, and afterwards writes the concatenation file
`hexdigest_total + '.cat'` unless the catalog holds exactly one record
(`len(cat) == self.hexlen + 1`) or the file already exists.  Returns the
total digest together with the updated storage. -/
def Scs.store (scs : Scs) (st : Storage) (b : Str) : Str × Storage :=
  let r := storeLoop scs (chunksOf scs.blocksize b) [] [] st
  let cat := r.1
  let st2 := r.2.2
  let hexdigestTotal := scs.h r.2.1
  let filenameTotal := hexdigestTotal ++ catSuffix
  if cat.length = scs.hexlen + 1 then (hexdigestTotal, st2)
  else if (st2 filenameTotal).isSome then (hexdigestTotal, st2)
  else (hexdigestTotal, st2.insert filenameTotal cat)

/-- The errors that the core operations can raise.  The source raises
`RuntimeError` with distinct messages (`'Invalid digest'`, `'Unknown
digest'`, `'Wrong checksum'`, `'Redundant concatenation file'`); the
backend raises an `IOError` when `storage.read` is given a missing file and
an `AssertionError` from `FileStorage._path` when a filename fails the
`^[0-9a-z.-]+$` assertion. -/
inductive ScsErr where
  | invalidDigest
  | unknownDigest
  | checksumMismatch
  | missingBlock
  | redundant
  | assertionFailed
deriving DecidableEq, Repr

/-- One step of the slicing loop
`for i in xrange(0, len(hexdigest_list), self.hexlen + 1)` of `Scs.load`,
with explicit fuel (the length of the catalog contents, which bounds the
number of iterations since the step `hexlen + 1` is at least one):
each iteration extracts the record `hexdigest_list[i:i+self.hexlen]`. -/
def catRefsGo (hexlen : Nat) : Nat → Str → List Str
  | 0, _ => []
  | fuel + 1, cat =>
      if cat = [] then []
      else cat.take hexlen :: catRefsGo hexlen fuel (cat.drop (hexlen + 1))

/-- The list of block digests that `Scs.load` slices out of the contents of
a concatenation file. -/
def catRefs (hexlen : Nat) (cat : Str) : List Str := catRefsGo hexlen cat.length cat

/-- The block-reading loop of the catalog branch of `Scs.load`: read
`ref + '.bin'` for every referenced digest, in order, yielding each block.
Returns the blocks yielded before termination together with the terminal
error, if any (a missing block file makes `storage.read` fail, which aborts
the generator after the previously yielded blocks). -/
def readBlocks (st : Storage) : List Str → List Str × Option ScsErr
  | [] => ([], none)
  | ref :: rest =>
      match st (ref ++ binSuffix) with
      | none => ([], some ScsErr.missingBlock)
      | some blk =>
          let r := readBlocks st rest
          (blk :: r.1, r.2)

/-- Embeds `Scs.load`: load the data of a bin.  The result is the list of chunks
the generator yields before it terminates, together with the terminal error,
if any.  The digest is first validated against
`len(hexdigest) == self.hexlen and re.match('^[0-9a-f]+$', hexdigest)`
(whose `$` also matches before one trailing newline); the first backend
access, `storage.exists(hexdigest + '.bin')`, then runs the
`FileStorage._path` assertion on that filename — a digest that passed the
regex only thanks to a trailing newline fails it, aborting the generator
with the backend's `AssertionError` before anything is yielded.  Otherwise
either the block file or the concatenation file is read (their names pass
the assertion alike, being the same digest with a lowercase suffix), and
after the whole sequence has been produced the running hash must equal the
requested digest. -/
def Scs.load (scs : Scs) (st : Storage) (hexdigest : Str) : List Str × Option ScsErr :=
  if hexdigest.length = scs.hexlen ∧ lineAll isHexLower hexdigest = true then
    if pathOk (hexdigest ++ binSuffix) = true then
    match st (hexdigest ++ binSuffix) with
    | some block =>
        if scs.h block = hexdigest then ([block], none)
        else ([block], some ScsErr.checksumMismatch)
    | none =>
        match st (hexdigest ++ catSuffix) with
        | some hexdigestList =>
            let r := readBlocks st (catRefs scs.hexlen hexdigestList)
            match r.2 with
            | some e => (r.1, some e)
            | none =>
                if scs.h r.1.flatten = hexdigest then (r.1, none)
                else (r.1, some ScsErr.checksumMismatch)
        | none => ([], some ScsErr.unknownDigest)
    else ([], some ScsErr.assertionFailed)
  else ([], some ScsErr.invalidDigest)

/-- The block files that a `Scs.load` of the given digest reads: the block
file of the digest itself when it exists, else the blocks referenced by the
concatenation file when that exists (mirroring the branch structure of
`Scs.load`, including its validity test and its backend path assertion). -/
def loadDeps (scs : Scs) (st : Storage) (hexdigest : Str) : List Str :=
  if hexdigest.length = scs.hexlen ∧ lineAll isHexLower hexdigest = true then
    if pathOk (hexdigest ++ binSuffix) = true then
      if (st (hexdigest ++ binSuffix)).isSome then [hexdigest]
      else
        match st (hexdigest ++ catSuffix) with
        | some hexdigestList => catRefs scs.hexlen hexdigestList
        | none => []
    else []
  else []

/-- Embeds `Scs.gc`: run the garbage collector.  The loop over
`self.storage.filenames()` treats each filename independently, so it is
embedded pointwise: filenames matching the data-file pattern are skipped,
filenames matching the temporary-file pattern are removed, anything else is
only warned about.  The `hexdigests` argument is unused in the source
(reachability-based collection is an unimplemented TODO). -/
def Scs.gc (scs : Scs) (hexdigests : Option (List Str)) (st : Storage) : Storage :=
  fun filename =>
    if filename.length = scs.hexlen + 4 ∧ DataName filename then st filename
    else if uuidTmp filename then none
    else st filename

/-- The body of the `Scs.check` loop for a single filename: data files whose
digest also names a block file while they are a concatenation file are
redundant; other data files are fully drained through `Scs.load`, whose
terminal error (if any) propagates; temporary and unknown files are only
warned about. -/
def Scs.checkFile (scs : Scs) (st : Storage) (filename : Str) : Option ScsErr :=
  if filename.length = scs.hexlen + 4 ∧ DataName filename then
    let hexdigestTotal := filename.take (filename.length - 4)
    if filename.drop (filename.length - 4) = catSuffix ∧
        (st (hexdigestTotal ++ binSuffix)).isSome then
      some ScsErr.redundant
    else (Scs.load scs st hexdigestTotal).2
  else none

/-- Embeds `Scs.check`: check all bins, iterating over an enumeration of the
filenames of the storage and surfacing the first failure. -/
def Scs.check (scs : Scs) (st : Storage) : List Str → Option ScsErr
  | [] => none
  | f :: rest =>
      match Scs.checkFile scs st f with
      | some e => some e
      | none => Scs.check scs st rest

/-- The name of the object that represents a digest: the block file when it
exists, otherwise the concatenation file. -/
def objName (st : Storage) (hexdigest : Str) : Str :=
  if (st (hexdigest ++ binSuffix)).isSome then hexdigest ++ binSuffix
  else hexdigest ++ catSuffix

/-- A lowercase hexadecimal digit character for the low nibble of a
number: digits for values below ten, letters from `'a'` onwards above. -/
def hexNib (n : Nat) : Char :=
  if n % 16 < 10 then Char.ofNat (48 + n % 16) else Char.ofNat (87 + n % 16)

/-- A concrete stand-in hexdigest function used to instantiate theorems:
two bytes of digest (`hexlen = 4`) derived from the length and the byte sum
of the input.  It satisfies `HashGood` and is collision-free on the small
concrete inputs it is used with. -/
def toyHash (s : Str) : Str :=
  [hexNib (s.length / 16), hexNib s.length,
   hexNib ((s.map Char.toNat).sum / 16), hexNib (s.map Char.toNat).sum]

/-- A concrete `Scs` instance with block size 2 and the stand-in hash. -/
def toyScs : Scs := Scs.mk 2 4 toyHash

lemma Storage.insert_same (st : Storage) (name : Str) (data : Str) :
    Storage.insert st name data name = some data := by
  simp [Storage.insert]

lemma Storage.insert_other (st : Storage) (name : Str) (data : Str) (n : Str)
    (h : n ≠ name) : Storage.insert st name data n = st n := by
  simp [Storage.insert, h]

lemma binName_inj {a b : Str} (h : a ++ binSuffix = b ++ binSuffix) : a = b :=
  (List.append_left_inj binSuffix).mp h

lemma binName_ne_catName (a b : Str) : a ++ binSuffix ≠ b ++ catSuffix := by
  intro h
  have := (List.append_inj' h (by decide)).2
  exact absurd this (by decide)

lemma catName_inj {a b : Str} (h : a ++ catSuffix = b ++ catSuffix) : a = b :=
  (List.append_left_inj catSuffix).mp h

lemma chompNewline_binName (d : Str) : chompNewline (d ++ binSuffix) = d ++ binSuffix := by
  have hlast : (d ++ binSuffix).getLast? = some 'n' := by
    rw [show d ++ binSuffix = (d ++ ['.', 'b', 'i']) ++ ['n'] by simp [binSuffix]]
    exact List.getLast?_concat _
  unfold chompNewline
  rw [hlast, if_neg (by decide)]

lemma chompNewline_catName (d : Str) : chompNewline (d ++ catSuffix) = d ++ catSuffix := by
  have hlast : (d ++ catSuffix).getLast? = some 't' := by
    rw [show d ++ catSuffix = (d ++ ['.', 'c', 'a']) ++ ['t'] by simp [catSuffix]]
    exact List.getLast?_concat _
  unfold chompNewline
  rw [hlast, if_neg (by decide)]

lemma chompNewline_of_no_newline (d : Str) (h : d.getLast? ≠ some '\n') :
    chompNewline d = d := by
  unfold chompNewline
  rw [if_neg h]

lemma isPathChar_of_hex {c : Char} (h : isHexLower c = true) : isPathChar c = true := by
  simp only [isHexLower, Bool.or_eq_true, Bool.and_eq_true, decide_eq_true_eq] at h
  simp only [isPathChar, Bool.or_eq_true, Bool.and_eq_true, decide_eq_true_eq]
  rcases h with ⟨h1, h2⟩ | ⟨h1, h2⟩
  · exact Or.inl (Or.inl (Or.inl ⟨h1, h2⟩))
  · exact Or.inl (Or.inl (Or.inr ⟨h1, le_trans h2 (by decide)⟩))

lemma all_pathChar_of_hex (d : Str) (h : d.all isHexLower = true) :
    d.all isPathChar = true :=
  List.all_eq_true.mpr (fun x hx => isPathChar_of_hex (List.all_eq_true.mp h x hx))

lemma lineAll_of_hex (d : Str) (h1 : d ≠ []) (h2 : d.all isHexLower = true) :
    lineAll isHexLower d = true := by
  have hnl : d.getLast? ≠ some '\n' := by
    intro hl
    have hmem : '\n' ∈ d := List.mem_of_mem_getLast? hl
    have := List.all_eq_true.mp h2 '\n' hmem
    exact absurd this (by decide)
  unfold lineAll
  rw [chompNewline_of_no_newline d hnl]
  rw [List.isEmpty_eq_false.mpr h1, h2]
  decide

lemma pathOk_binName (d : Str) (h2 : d.all isHexLower = true) :
    pathOk (d ++ binSuffix) = true := by
  unfold pathOk lineAll
  rw [chompNewline_binName]
  rw [List.isEmpty_eq_false.mpr (show d ++ binSuffix ≠ [] by simp [binSuffix])]
  rw [List.all_append, all_pathChar_of_hex d h2]
  decide

lemma chunksGo_nil (bs : Nat) (fuel : Nat) : chunksGo bs fuel [] = [] := by
  cases fuel <;> simp [chunksGo]

lemma chunksGo_congr (bs : Nat) :
    ∀ (f1 f2 : Nat) (b : Str), b.length ≤ f1 → b.length ≤ f2 →
      chunksGo bs f1 b = chunksGo bs f2 b := by
  intro f1
  induction f1 with
  | zero =>
      intro f2 b h1 _
      have hb : b = [] := List.eq_nil_of_length_eq_zero (Nat.le_zero.mp h1)
      subst hb
      simp [chunksGo_nil]
  | succ f ih =>
      intro f2 b h1 h2
      cases f2 with
      | zero =>
          have hb : b = [] := List.eq_nil_of_length_eq_zero (Nat.le_zero.mp h2)
          subst hb
          simp [chunksGo_nil]
      | succ f2' =>
          simp only [chunksGo]
          by_cases htake : b.take bs = []
          · simp [htake]
          · simp only [htake, if_neg, ite_false]
            have hbs : bs ≠ 0 := by
              intro h; subst h; simp at htake
            have hb : b ≠ [] := by
              intro h; subst h; simp at htake
            have hlen : 0 < b.length := List.length_pos.mpr hb
            have hdrop : (b.drop bs).length ≤ f := by
              rw [List.length_drop]; omega
            have hdrop2 : (b.drop bs).length ≤ f2' := by
              rw [List.length_drop]; omega
            rw [ih f2' (b.drop bs) hdrop hdrop2]

lemma chunksOf_nil (bs : Nat) : chunksOf bs [] = [] := rfl

lemma chunksOf_cons (bs : Nat) (b : Str) (hb : b ≠ []) (hbs : bs ≠ 0) :
    chunksOf bs b = b.take bs :: chunksOf bs (b.drop bs) := by
  have hlen : 0 < b.length := List.length_pos.mpr hb
  have htake : b.take bs ≠ [] := by
    intro h
    rcases List.take_eq_nil_iff.mp h with h0 | h0
    · exact hbs h0
    · exact hb h0
  unfold chunksOf
  have h1 : b.length = (b.length - 1) + 1 := by omega
  rw [h1]
  simp only [chunksGo, htake, ite_false, if_neg]
  congr 1
  exact chunksGo_congr bs (b.length - 1) (b.drop bs).length (b.drop bs)
    (by rw [List.length_drop]; omega) (le_refl _)

lemma chunksOf_eq_nil (bs : Nat) (b : Str) (hbs : bs ≠ 0)
    (h : chunksOf bs b = []) : b = [] := by
  by_contra hb
  rw [chunksOf_cons bs b hb hbs] at h
  exact List.cons_ne_nil _ _ h

lemma flatten_chunksOf (bs : Nat) (hbs : bs ≠ 0) :
    ∀ (n : Nat) (b : Str), b.length ≤ n → (chunksOf bs b).flatten = b := by
  intro n
  induction n with
  | zero =>
      intro b h
      have hb : b = [] := List.eq_nil_of_length_eq_zero (Nat.le_zero.mp h)
      subst hb; rfl
  | succ n ih =>
      intro b h
      by_cases hb : b = []
      · subst hb; rfl
      · rw [chunksOf_cons bs b hb hbs]
        have hlen : 0 < b.length := List.length_pos.mpr hb
        have : (b.drop bs).length ≤ n := by rw [List.length_drop]; omega
        simp only [List.flatten_cons, ih (b.drop bs) this, List.take_append_drop]

lemma length_le_of_mem_chunksOf (bs : Nat) :
    ∀ (n : Nat) (b : Str), b.length ≤ n → ∀ blk ∈ chunksOf bs b, blk.length ≤ bs := by
  intro n
  induction n with
  | zero =>
      intro b h blk hmem
      have hb : b = [] := List.eq_nil_of_length_eq_zero (Nat.le_zero.mp h)
      subst hb; simp [chunksOf_nil] at hmem
  | succ n ih =>
      intro b h blk hmem
      by_cases hb : b = []
      · subst hb; simp [chunksOf_nil] at hmem
      · by_cases hbs : bs = 0
        · subst hbs
          unfold chunksOf at hmem
          have h1 : b.length = (b.length - 1) + 1 := by
            have := List.length_pos.mpr hb; omega
          rw [h1] at hmem
          simp [chunksGo] at hmem
        · rw [chunksOf_cons bs b hb hbs] at hmem
          rcases List.mem_cons.mp hmem with h1 | h1
          · subst h1; rw [List.length_take]; omega
          · have hlen : 0 < b.length := List.length_pos.mpr hb
            exact ih (b.drop bs) (by rw [List.length_drop]; omega) blk h1

lemma blocksize_lt_of_two_chunks (bs : Nat) (b : Str)
    (h : 2 ≤ (chunksOf bs b).length) : bs ≠ 0 ∧ bs < b.length := by
  have hbs : bs ≠ 0 := by
    intro hbs0
    subst hbs0
    by_cases hb : b = []
    · subst hb; simp [chunksOf_nil] at h
    · unfold chunksOf at h
      have h1 : b.length = (b.length - 1) + 1 := by
        have := List.length_pos.mpr hb; omega
      rw [h1] at h
      simp [chunksGo] at h
  refine ⟨hbs, ?_⟩
  by_cases hb : b = []
  · subst hb; simp [chunksOf_nil] at h
  · rw [chunksOf_cons bs b hb hbs] at h
    simp only [List.length_cons] at h
    have h2 : chunksOf bs (b.drop bs) ≠ [] := by
      intro h3; rw [h3] at h; simp at h
    have h4 : b.drop bs ≠ [] := by
      intro h5; rw [h5] at h2; exact h2 (chunksOf_nil bs)
    have := List.length_pos.mpr h4
    rw [List.length_drop] at this
    omega

lemma catRefsGo_nil (hexlen : Nat) (fuel : Nat) : catRefsGo hexlen fuel [] = [] := by
  cases fuel <;> simp [catRefsGo]

lemma catRefsGo_congr (hexlen : Nat) :
    ∀ (f1 f2 : Nat) (cat : Str), cat.length ≤ f1 → cat.length ≤ f2 →
      catRefsGo hexlen f1 cat = catRefsGo hexlen f2 cat := by
  intro f1
  induction f1 with
  | zero =>
      intro f2 cat h1 _
      have hc : cat = [] := List.eq_nil_of_length_eq_zero (Nat.le_zero.mp h1)
      subst hc
      simp [catRefsGo_nil]
  | succ f ih =>
      intro f2 cat h1 h2
      cases f2 with
      | zero =>
          have hc : cat = [] := List.eq_nil_of_length_eq_zero (Nat.le_zero.mp h2)
          subst hc
          simp [catRefsGo_nil]
      | succ f2' =>
          simp only [catRefsGo]
          by_cases hc : cat = []
          · simp [hc]
          · simp only [hc, ite_false, if_neg]
            have hlen : 0 < cat.length := List.length_pos.mpr hc
            have hd1 : (cat.drop (hexlen + 1)).length ≤ f := by
              rw [List.length_drop]; omega
            have hd2 : (cat.drop (hexlen + 1)).length ≤ f2' := by
              rw [List.length_drop]; omega
            rw [ih f2' (cat.drop (hexlen + 1)) hd1 hd2]

lemma catRefs_nil (hexlen : Nat) : catRefs hexlen [] = [] := rfl

lemma catRefs_cons (hexlen : Nat) (cat : Str) (hc : cat ≠ []) :
    catRefs hexlen cat = cat.take hexlen :: catRefs hexlen (cat.drop (hexlen + 1)) := by
  have hlen : 0 < cat.length := List.length_pos.mpr hc
  unfold catRefs
  have h1 : cat.length = (cat.length - 1) + 1 := by omega
  rw [h1]
  simp only [catRefsGo, hc, ite_false, if_neg]
  congr 1
  exact catRefsGo_congr hexlen (cat.length - 1) (cat.drop (hexlen + 1)).length
    (cat.drop (hexlen + 1)) (by rw [List.length_drop]; omega) (le_refl _)

lemma catListing_nil (scs : Scs) : catListing scs [] = [] := rfl

lemma catListing_cons (scs : Scs) (blk : Str) (rest : List Str) :
    catListing scs (blk :: rest) = scs.h blk ++ ['\n'] ++ catListing scs rest := by
  simp [catListing]

lemma length_catListing (scs : Scs) (hg : HashGood scs) (blocks : List Str) :
    (catListing scs blocks).length = blocks.length * (scs.hexlen + 1) := by
  induction blocks with
  | nil => simp [catListing_nil]
  | cons blk rest ih =>
      rw [catListing_cons]
      simp only [List.length_append, List.length_cons, List.length_nil, ih, (hg blk).1]
      ring

lemma catRefs_catListing (scs : Scs) (hg : HashGood scs) (blocks : List Str) :
    catRefs scs.hexlen (catListing scs blocks) = blocks.map scs.h := by
  induction blocks with
  | nil => simp [catListing_nil, catRefs_nil]
  | cons blk rest ih =>
      rw [catListing_cons]
      have hne : scs.h blk ++ ['\n'] ++ catListing scs rest ≠ [] := by
        simp
      rw [catRefs_cons scs.hexlen _ hne]
      have hassoc : scs.h blk ++ ['\n'] ++ catListing scs rest
          = scs.h blk ++ (['\n'] ++ catListing scs rest) := by
        simp [List.append_assoc]
      have htake : (scs.h blk ++ ['\n'] ++ catListing scs rest).take scs.hexlen
          = scs.h blk := by
        rw [hassoc]
        exact List.take_left' (hg blk).1
      have hdrop : (scs.h blk ++ ['\n'] ++ catListing scs rest).drop (scs.hexlen + 1)
          = catListing scs rest := by
        refine List.drop_left' ?_
        simp [(hg blk).1]
      rw [htake, hdrop, ih]
      simp

lemma storeLoop_cat (scs : Scs) :
    ∀ (blocks : List Str) (cat acc : Str) (st : Storage),
      (storeLoop scs blocks cat acc st).1 = cat ++ catListing scs blocks := by
  intro blocks
  induction blocks with
  | nil => intro cat acc st; simp [storeLoop, catListing_nil]
  | cons blk rest ih =>
      intro cat acc st
      simp only [storeLoop, ih, catListing_cons]
      simp [List.append_assoc]

lemma storeLoop_acc (scs : Scs) :
    ∀ (blocks : List Str) (cat acc : Str) (st : Storage),
      (storeLoop scs blocks cat acc st).2.1 = acc ++ blocks.flatten := by
  intro blocks
  induction blocks with
  | nil => intro cat acc st; simp [storeLoop]
  | cons blk rest ih =>
      intro cat acc st
      simp only [storeLoop, ih, List.flatten_cons]
      simp [List.append_assoc]

lemma storeLoop_frame (scs : Scs) :
    ∀ (blocks : List Str) (cat acc : Str) (st : Storage) (name : Str),
      (∀ blk ∈ blocks, name ≠ scs.h blk ++ binSuffix) →
      (storeLoop scs blocks cat acc st).2.2 name = st name := by
  intro blocks
  induction blocks with
  | nil => intro cat acc st name _; rfl
  | cons blk rest ih =>
      intro cat acc st name hname
      simp only [storeLoop]
      rw [ih _ _ _ name (fun b hb => hname b (List.mem_cons_of_mem blk hb))]
      by_cases hex : (st (scs.h blk ++ binSuffix)).isSome
      · simp [hex]
      · simp only [hex, ite_false, if_neg, Bool.false_eq_true]
        exact Storage.insert_other st _ blk name (hname blk (List.mem_cons_self blk rest))

lemma storeLoop_noop (scs : Scs) :
    ∀ (blocks : List Str) (cat acc : Str) (st : Storage),
      (∀ blk ∈ blocks, (st (scs.h blk ++ binSuffix)).isSome = true) →
      (storeLoop scs blocks cat acc st).2.2 = st := by
  intro blocks
  induction blocks with
  | nil => intro cat acc st _; rfl
  | cons blk rest ih =>
      intro cat acc st hall
      simp only [storeLoop]
      rw [hall blk (List.mem_cons_self blk rest)]
      simp only [ite_true, if_pos]
      exact ih _ _ st (fun b hb => hall b (List.mem_cons_of_mem blk hb))

lemma storeLoop_read (scs : Scs) :
    ∀ (blocks : List Str) (cat acc : Str) (st : Storage) (blk : Str),
      blk ∈ blocks →
      (∀ x ∈ blocks, ∀ y ∈ blocks, scs.h x = scs.h y → x = y) →
      (∀ x ∈ blocks, st (scs.h x ++ binSuffix) = none ∨
                     st (scs.h x ++ binSuffix) = some x) →
      (storeLoop scs blocks cat acc st).2.2 (scs.h blk ++ binSuffix) = some blk := by
  intro blocks
  induction blocks with
  | nil => intro cat acc st blk hmem; simp at hmem
  | cons b0 rest ih =>
      intro cat acc st blk hmem hinj hgood
      simp only [storeLoop]
      set st2 := if (st (scs.h b0 ++ binSuffix)).isSome then st
        else st.insert (scs.h b0 ++ binSuffix) b0 with hst2
      have hst2b0 : st2 (scs.h b0 ++ binSuffix) = some b0 := by
        rcases hgood b0 (List.mem_cons_self b0 rest) with hn | hs
        · rw [hst2, hn]
          simp only [Option.isSome_none, Bool.false_eq_true, ite_false, if_neg]
          exact Storage.insert_same st _ b0
        · rw [hst2, hs]
          simp [hs]
      have hgood2 : ∀ x ∈ rest, st2 (scs.h x ++ binSuffix) = none ∨
          st2 (scs.h x ++ binSuffix) = some x := by
        intro x hx
        by_cases hnm : scs.h x ++ binSuffix = scs.h b0 ++ binSuffix
        · have hhx : scs.h x = scs.h b0 := binName_inj hnm
          have hxb0 : x = b0 := hinj x (List.mem_cons_of_mem b0 hx) b0
            (List.mem_cons_self b0 rest) hhx
          right
          rw [hnm, hst2b0, hxb0]
        · rcases hgood x (List.mem_cons_of_mem b0 hx) with hn | hs
          · left
            rw [hst2]
            by_cases hex : (st (scs.h b0 ++ binSuffix)).isSome
            · simp only [hex, ite_true, if_pos]; exact hn
            · simp only [hex, Bool.false_eq_true, ite_false, if_neg]
              rw [Storage.insert_other st _ b0 _ hnm]
              exact hn
          · right
            rw [hst2]
            by_cases hex : (st (scs.h b0 ++ binSuffix)).isSome
            · simp only [hex, ite_true, if_pos]; exact hs
            · simp only [hex, Bool.false_eq_true, ite_false, if_neg]
              rw [Storage.insert_other st _ b0 _ hnm]
              exact hs
      rcases List.mem_cons.mp hmem with hbb0 | hbrest
      · subst hbb0
        by_cases hbrest : blk ∈ rest
        · exact ih _ _ st2 blk hbrest
            (fun x hx y hy => hinj x (List.mem_cons_of_mem blk hx) y
              (List.mem_cons_of_mem blk hy)) hgood2
        · rw [storeLoop_frame scs rest _ _ st2 (scs.h blk ++ binSuffix) ?_]
          · exact hst2b0
          · intro y hy hne
            have hhy : scs.h blk = scs.h y := binName_inj hne
            have : blk = y := hinj blk (List.mem_cons_self blk rest) y
              (List.mem_cons_of_mem blk hy) hhy
            subst this
            exact hbrest hy
      · exact ih _ _ st2 blk hbrest
          (fun x hx y hy => hinj x (List.mem_cons_of_mem b0 hx) y
            (List.mem_cons_of_mem b0 hy)) hgood2

lemma readBlocks_map (st : Storage) (f : Str → Str) :
    ∀ refs : List Str, (∀ r ∈ refs, st (r ++ binSuffix) = some (f r)) →
      readBlocks st refs = (refs.map f, none) := by
  intro refs
  induction refs with
  | nil => intro _; rfl
  | cons r rest ih =>
      intro hall
      simp only [readBlocks, hall r (List.mem_cons_self r rest)]
      rw [ih (fun x hx => hall x (List.mem_cons_of_mem r hx))]
      simp

lemma readBlocks_map_digest (scs : Scs) (st : Storage) :
    ∀ blocks : List Str, (∀ blk ∈ blocks, st (scs.h blk ++ binSuffix) = some blk) →
      readBlocks st (blocks.map scs.h) = (blocks, none) := by
  intro blocks
  induction blocks with
  | nil => intro _; rfl
  | cons blk rest ih =>
      intro hall
      simp only [List.map_cons, readBlocks, hall blk (List.mem_cons_self blk rest)]
      rw [ih (fun x hx => hall x (List.mem_cons_of_mem blk hx))]

lemma readBlocks_ok (st : Storage) :
    ∀ (refs : List Str) (cs : List Str), readBlocks st refs = (cs, none) →
      (∀ r ∈ refs, (st (r ++ binSuffix)).isSome = true) ∧
      cs = refs.map (fun r => (st (r ++ binSuffix)).getD []) := by
  intro refs
  induction refs with
  | nil =>
      intro cs h
      simp only [readBlocks, Prod.mk.injEq] at h
      exact ⟨by intro r hr; simp at hr, h.1.symm⟩
  | cons r rest ih =>
      intro cs h
      simp only [readBlocks] at h
      cases hr : st (r ++ binSuffix) with
      | none => rw [hr] at h; simp at h
      | some blk =>
          rw [hr] at h
          simp only [Prod.mk.injEq] at h
          obtain ⟨hcs, he⟩ := h
          obtain ⟨hall, hmap⟩ := ih (readBlocks st rest).1 (by
            have : readBlocks st rest = ((readBlocks st rest).1, (readBlocks st rest).2) := rfl
            rw [this, he])
          constructor
          · intro x hx
            rcases List.mem_cons.mp hx with h1 | h1
            · subst h1; rw [hr]; rfl
            · exact hall x h1
          · rw [← hcs, hmap]
            simp [hr]

lemma eatHex_suffix :
    ∀ (n : Nat) (s r : Str), eatHex n s = some r → ∃ p, s = p ++ r ∧ p.length = n := by
  intro n
  induction n with
  | zero =>
      intro s r h
      simp only [eatHex, Option.some.injEq] at h
      exact ⟨[], by simp [h]⟩
  | succ n ih =>
      intro s r h
      cases s with
      | nil => simp [eatHex] at h
      | cons c s' =>
          simp only [eatHex] at h
          by_cases hc : isHexLower c
          · rw [if_pos hc] at h
            obtain ⟨p, hp, hlen⟩ := ih s' r h
            exact ⟨c :: p, by simp [hp], by simp [hlen]⟩
          · rw [if_neg hc] at h
            exact absurd h (by simp)

lemma eatDash_suffix (s r : Str) (h : eatDash s = some r) : s = '-' :: r := by
  cases s with
  | nil => simp [eatDash] at h
  | cons c s' =>
      by_cases hc : c = '-'
      · subst hc
        simp only [eatDash, if_true, ite_true, Option.some.injEq] at h
        rw [h]
      · simp [eatDash, hc] at h

lemma uuidTmp_shape (s : Str) (h : uuidTmp s = true) :
    (chompNewline s).length = 40 ∧ (chompNewline s).drop 36 = tmpSuffix := by
  unfold uuidTmp at h
  split at h
  case h_2 => simp at h
  case h_1 r heq =>
    have hr : r = tmpSuffix := by
      simpa using h
    subst hr
    obtain ⟨s1, h1⟩ : ∃ s1, eatHex 8 (chompNewline s) = some s1 := by
      cases hx : eatHex 8 (chompNewline s) with
      | none => rw [hx] at heq; simp at heq
      | some v => exact ⟨v, rfl⟩
    rw [h1] at heq
    simp only [Option.bind_eq_bind, Option.some_bind] at heq
    obtain ⟨s2, h2⟩ : ∃ s2, eatDash s1 = some s2 := by
      cases hx : eatDash s1 with
      | none => rw [hx] at heq; simp at heq
      | some v => exact ⟨v, rfl⟩
    rw [h2] at heq
    simp only [Option.some_bind] at heq
    obtain ⟨s3, h3⟩ : ∃ s3, eatHex 4 s2 = some s3 := by
      cases hx : eatHex 4 s2 with
      | none => rw [hx] at heq; simp at heq
      | some v => exact ⟨v, rfl⟩
    rw [h3] at heq
    simp only [Option.some_bind] at heq
    obtain ⟨s4, h4⟩ : ∃ s4, eatDash s3 = some s4 := by
      cases hx : eatDash s3 with
      | none => rw [hx] at heq; simp at heq
      | some v => exact ⟨v, rfl⟩
    rw [h4] at heq
    simp only [Option.some_bind] at heq
    obtain ⟨s5, h5⟩ : ∃ s5, eatHex 4 s4 = some s5 := by
      cases hx : eatHex 4 s4 with
      | none => rw [hx] at heq; simp at heq
      | some v => exact ⟨v, rfl⟩
    rw [h5] at heq
    simp only [Option.some_bind] at heq
    obtain ⟨s6, h6⟩ : ∃ s6, eatDash s5 = some s6 := by
      cases hx : eatDash s5 with
      | none => rw [hx] at heq; simp at heq
      | some v => exact ⟨v, rfl⟩
    rw [h6] at heq
    simp only [Option.some_bind] at heq
    obtain ⟨s7, h7⟩ : ∃ s7, eatHex 4 s6 = some s7 := by
      cases hx : eatHex 4 s6 with
      | none => rw [hx] at heq; simp at heq
      | some v => exact ⟨v, rfl⟩
    rw [h7] at heq
    simp only [Option.some_bind] at heq
    obtain ⟨s8, h8⟩ : ∃ s8, eatDash s7 = some s8 := by
      cases hx : eatDash s7 with
      | none => rw [hx] at heq; simp at heq
      | some v => exact ⟨v, rfl⟩
    rw [h8] at heq
    simp only [Option.some_bind] at heq
    obtain ⟨p1, hp1, hl1⟩ := eatHex_suffix 8 (chompNewline s) s1 h1
    have hq1 : s1 = '-' :: s2 := eatDash_suffix s1 s2 h2
    obtain ⟨p2, hp2, hl2⟩ := eatHex_suffix 4 s2 s3 h3
    have hq2 : s3 = '-' :: s4 := eatDash_suffix s3 s4 h4
    obtain ⟨p3, hp3, hl3⟩ := eatHex_suffix 4 s4 s5 h5
    have hq3 : s5 = '-' :: s6 := eatDash_suffix s5 s6 h6
    obtain ⟨p4, hp4, hl4⟩ := eatHex_suffix 4 s6 s7 h7
    have hq4 : s7 = '-' :: s8 := eatDash_suffix s7 s8 h8
    obtain ⟨p5, hp5, hl5⟩ := eatHex_suffix 12 s8 tmpSuffix heq
    have hs : chompNewline s
        = (p1 ++ '-' :: (p2 ++ '-' :: (p3 ++ '-' :: (p4 ++ '-' :: p5))))
        ++ tmpSuffix := by
      rw [hp1, hq1, hp2, hq2, hp3, hq3, hp4, hq4, hp5]
      simp [List.append_assoc]
    have hplen : (p1 ++ '-' :: (p2 ++ '-' :: (p3 ++ '-' :: (p4 ++ '-' :: p5)))).length
        = 36 := by
      simp [hl1, hl2, hl3, hl4, hl5]
    constructor
    · rw [hs, List.length_append, hplen]
      rfl
    · rw [hs]
      exact List.drop_left' hplen

lemma uuidTmp_not_dataName (s : Str) (h : uuidTmp s = true) : ¬ DataName s := by
  intro hd
  obtain ⟨hlen, hdrop⟩ := uuidTmp_shape s h
  obtain ⟨_, _, hsuf⟩ := hd
  rw [hlen] at hsuf
  rcases hsuf with h1 | h1 <;>
    · rw [show (40 : Nat) - 4 = 36 from rfl] at h1
      rw [hdrop] at h1
      exact absurd h1 (by decide)

lemma flatten_map_len (f g : Str → Str) (r : Str) (hoff : ∀ x, x ≠ r → f x = g x) :
    ∀ refs : List Str,
      ((refs.map f).flatten).length + refs.count r * (g r).length =
      ((refs.map g).flatten).length + refs.count r * (f r).length := by
  intro refs
  induction refs with
  | nil => simp
  | cons x rest ih =>
      simp only [List.map_cons, List.flatten_cons, List.length_append]
      by_cases hx : x = r
      · subst hx
        rw [List.count_cons_self]
        have e1 : (rest.count x + 1) * (g x).length
            = rest.count x * (g x).length + (g x).length := by ring
        have e2 : (rest.count x + 1) * (f x).length
            = rest.count x * (f x).length + (f x).length := by ring
        rw [e1, e2]
        omega
      · rw [List.count_cons_of_ne (fun hh => hx hh.symm) rest]
        rw [hoff x hx]
        omega

lemma flatten_map_ne_of_len_eq (f g : Str → Str) (r : Str)
    (hoff : ∀ x, x ≠ r → f x = g x) (hne : f r ≠ g r)
    (hlen : (f r).length = (g r).length) :
    ∀ refs : List Str, r ∈ refs →
      (refs.map f).flatten ≠ (refs.map g).flatten := by
  intro refs
  induction refs with
  | nil => intro h; simp at h
  | cons x rest ih =>
      intro hmem heq
      simp only [List.map_cons, List.flatten_cons] at heq
      by_cases hx : x = r
      · subst hx
        obtain ⟨h1, _⟩ := List.append_inj heq hlen
        exact hne h1
      · rw [hoff x hx] at heq
        have heq2 : (rest.map f).flatten = (rest.map g).flatten :=
          (List.append_right_inj (g x)).mp heq
        have hmem2 : r ∈ rest := by
          rcases List.mem_cons.mp hmem with h1 | h1
          · exact absurd h1.symm hx
          · exact h1
        exact ih hmem2 heq2

lemma flatten_map_ne (f g : Str → Str) (r : Str)
    (hoff : ∀ x, x ≠ r → f x = g x) (hne : f r ≠ g r) :
    ∀ refs : List Str, r ∈ refs →
      (refs.map f).flatten ≠ (refs.map g).flatten := by
  intro refs hmem
  by_cases hlen : (f r).length = (g r).length
  · exact flatten_map_ne_of_len_eq f g r hoff hne hlen refs hmem
  · intro heq
    have hc := flatten_map_len f g r hoff refs
    rw [heq] at hc
    have hcount : 0 < refs.count r := List.count_pos_iff.mpr hmem
    have : refs.count r * (g r).length = refs.count r * (f r).length := by omega
    have : (g r).length = (f r).length :=
      Nat.eq_of_mul_eq_mul_left hcount this
    exact hlen this.symm

lemma isHexLower_hexNib (n : Nat) : isHexLower (hexNib n) = true := by
  unfold hexNib
  have h16 : n % 16 < 16 := Nat.mod_lt _ (by norm_num)
  set m := n % 16 with hm
  interval_cases m <;> decide

lemma toyGood : HashGood toyScs := by
  intro s
  constructor
  · rfl
  · simp only [toyScs, toyHash, List.all_cons, List.all_nil, Bool.and_true,
      isHexLower_hexNib, Bool.and_self]

lemma load_valid (scs : Scs) (st : Storage) (d : Str) (chunks : List Str)
    (h : Scs.load scs st d = (chunks, none)) :
    d.length = scs.hexlen ∧ d ≠ [] ∧ d.all isHexLower = true := by
  by_cases hcond : d.length = scs.hexlen ∧ lineAll isHexLower d = true
  · by_cases hpath : pathOk (d ++ binSuffix) = true
    · have hnl : d.getLast? ≠ some '\n' := by
        intro hl
        have hmem2 : '\n' ∈ d ++ binSuffix :=
          List.mem_append.mpr (Or.inl (List.mem_of_mem_getLast? hl))
        have hall : (d ++ binSuffix).all isPathChar = true := by
          have hp := hpath
          unfold pathOk lineAll at hp
          rw [chompNewline_binName] at hp
          exact (Bool.and_eq_true_iff.mp hp).2
        have := List.all_eq_true.mp hall '\n' hmem2
        exact absurd this (by decide)
      have hla := hcond.2
      unfold lineAll at hla
      rw [chompNewline_of_no_newline d hnl] at hla
      obtain ⟨hne, hall⟩ := Bool.and_eq_true_iff.mp hla
      refine ⟨hcond.1, ?_, hall⟩
      have h0 : d.isEmpty = false := by
        cases hie : d.isEmpty
        · rfl
        · rw [hie] at hne; exact absurd hne (by decide)
      exact List.isEmpty_eq_false.mp h0
    · unfold Scs.load at h
      rw [if_pos hcond, if_neg hpath] at h
      exact absurd (congrArg Prod.snd h) (by simp)
  · unfold Scs.load at h
    rw [if_neg hcond] at h
    exact absurd (congrArg Prod.snd h) (by simp)

lemma store_eq (scs : Scs) (st : Storage) (b : Str) :
    Scs.store scs st b =
      (scs.h (chunksOf scs.blocksize b).flatten,
       if (catListing scs (chunksOf scs.blocksize b)).length = scs.hexlen + 1 then
         (storeLoop scs (chunksOf scs.blocksize b) [] [] st).2.2
       else if ((storeLoop scs (chunksOf scs.blocksize b) [] [] st).2.2
           (scs.h (chunksOf scs.blocksize b).flatten ++ catSuffix)).isSome then
         (storeLoop scs (chunksOf scs.blocksize b) [] [] st).2.2
       else Storage.insert ((storeLoop scs (chunksOf scs.blocksize b) [] [] st).2.2)
         (scs.h (chunksOf scs.blocksize b).flatten ++ catSuffix)
         (catListing scs (chunksOf scs.blocksize b))) := by
  unfold Scs.store
  simp only [storeLoop_cat, storeLoop_acc, List.nil_append]
  split
  · rfl
  · split <;> rfl

lemma chunksOf_single (bs : Nat) (b : Str) (hb : b ≠ []) (hle : b.length ≤ bs) :
    chunksOf bs b = [b] := by
  have hbs : bs ≠ 0 := by
    have := List.length_pos.mpr hb
    omega
  rw [chunksOf_cons bs b hb hbs, List.take_of_length_le hle,
    List.drop_eq_nil_of_le hle, chunksOf_nil]

/-- C5: storing the empty input creates a catalog object with empty content,
named by the digest of the empty byte sequence plus `.cat`, creates no block
object, and returns that digest. -/
theorem store_empty_input (scs : Scs) :
    Scs.store scs scsEmpty [] =
      (scs.h [], Storage.insert scsEmpty (scs.h [] ++ catSuffix) []) ∧
    (Scs.store scs scsEmpty []).2 (scs.h [] ++ binSuffix) = none := by
  have h1 : Scs.store scs scsEmpty [] =
      (scs.h [], Storage.insert scsEmpty (scs.h [] ++ catSuffix) []) := by
    rw [store_eq]
    rw [chunksOf_nil, catListing_nil, List.flatten_nil]
    rw [if_neg (by simp)]
    have hloop : (storeLoop scs [] [] [] scsEmpty).2.2 = scsEmpty := rfl
    rw [hloop]
    rw [if_neg (by simp [scsEmpty])]
  refine ⟨h1, ?_⟩
  rw [h1]
  simp only [Storage.insert]
  rw [if_neg (fun hh => binName_ne_catName (scs.h []) (scs.h []) hh)]
  rfl

/-- C4 counterexample: the empty input has length at most the block size,
yet `Scs.store` does create a `.cat` object for it (with empty contents),
contradicting the claim for inputs of length zero. -/
theorem store_single_block_cex :
    ([] : Str).length ≤ toyScs.blocksize ∧
    (Scs.store toyScs scsEmpty []).2 (toyScs.h [] ++ catSuffix) = some [] ∧
    (Scs.store toyScs scsEmpty []).2 (toyScs.h [] ++ binSuffix) = none := by
  decide

/-- C4 (amended to nonempty inputs): for every nonempty input whose length
is at most the configured block size, `Scs.store` writes no catalog object:
the input is represented by exactly one block object named by the digest of
the full input, and no `.cat` object is created. -/
theorem store_single_block (scs : Scs) (b : Str) (hg : HashGood scs)
    (hb : b ≠ []) (hle : b.length ≤ scs.blocksize) :
    Scs.store scs scsEmpty b =
      (scs.h b, Storage.insert scsEmpty (scs.h b ++ binSuffix) b) ∧
    (Scs.store scs scsEmpty b).2 (scs.h b ++ catSuffix) = none := by
  have hch : chunksOf scs.blocksize b = [b] := chunksOf_single _ b hb hle
  have h1 : Scs.store scs scsEmpty b =
      (scs.h b, Storage.insert scsEmpty (scs.h b ++ binSuffix) b) := by
    rw [store_eq, hch]
    have hflat : ([b] : List Str).flatten = b := by simp
    rw [hflat]
    have hcat : (catListing scs [b]).length = scs.hexlen + 1 := by
      rw [length_catListing scs hg]
      simp
    rw [if_pos hcat]
    have hloop : (storeLoop scs [b] [] [] scsEmpty).2.2
        = Storage.insert scsEmpty (scs.h b ++ binSuffix) b := by
      simp only [storeLoop, scsEmpty, Option.isSome_none, Bool.false_eq_true,
        ite_false, if_neg]
    rw [hloop]
  refine ⟨h1, ?_⟩
  rw [h1]
  simp only [Storage.insert]
  rw [if_neg (fun hh => binName_ne_catName (scs.h b) (scs.h b) hh.symm)]
  rfl

/-- C3: for every input that chunks into two or more blocks, `Scs.store`
writes a catalog object whose content is exactly the concatenation of the
block digests each followed by a newline, in chunk order, and whose name is
the digest of the full input stream plus `.cat` (the digest of the stream,
not of the catalog's own bytes); that digest is also the returned one. -/
theorem store_multi_block_cat (scs : Scs) (b : Str) (hg : HashGood scs)
    (hk : 2 ≤ (chunksOf scs.blocksize b).length) :
    (Scs.store scs scsEmpty b).1 = scs.h b ∧
    (Scs.store scs scsEmpty b).2 (scs.h b ++ catSuffix)
      = some (catListing scs (chunksOf scs.blocksize b)) := by
  obtain ⟨hbs, _⟩ := blocksize_lt_of_two_chunks scs.blocksize b hk
  have hflat : (chunksOf scs.blocksize b).flatten = b :=
    flatten_chunksOf scs.blocksize hbs b.length b le_rfl
  have hcatlen : ¬ (catListing scs (chunksOf scs.blocksize b)).length
      = scs.hexlen + 1 := by
    rw [length_catListing scs hg]
    intro h
    have h1 : (chunksOf scs.blocksize b).length * (scs.hexlen + 1)
        = 1 * (scs.hexlen + 1) := by
      rw [h]; ring
    have := Nat.eq_of_mul_eq_mul_right (Nat.succ_pos scs.hexlen) h1
    omega
  have hframe : (storeLoop scs (chunksOf scs.blocksize b) [] [] scsEmpty).2.2
      (scs.h b ++ catSuffix) = none := by
    rw [storeLoop_frame scs _ _ _ _ _
      (fun blk _ => fun heq => binName_ne_catName (scs.h blk) (scs.h b) heq.symm)]
    rfl
  rw [store_eq, hflat, if_neg hcatlen]
  rw [hframe]
  simp only [Option.isSome_none, Bool.false_eq_true, ite_false, if_neg]
  exact ⟨trivial, Storage.insert_same _ _ _⟩

lemma load_bin (scs : Scs) (st : Storage) (d : Str)
    (hv : d.length = scs.hexlen ∧ d ≠ [] ∧ d.all isHexLower = true)
    (blk : Str) (hbin : st (d ++ binSuffix) = some blk) :
    Scs.load scs st d =
      if scs.h blk = d then ([blk], none)
      else ([blk], some ScsErr.checksumMismatch) := by
  unfold Scs.load
  rw [if_pos ⟨hv.1, lineAll_of_hex d hv.2.1 hv.2.2⟩,
    if_pos (pathOk_binName d hv.2.2), hbin]

lemma load_cat (scs : Scs) (st : Storage) (d : Str)
    (hv : d.length = scs.hexlen ∧ d ≠ [] ∧ d.all isHexLower = true)
    (cat : Str) (hbin : st (d ++ binSuffix) = none)
    (hcat : st (d ++ catSuffix) = some cat) :
    Scs.load scs st d =
      (match (readBlocks st (catRefs scs.hexlen cat)).2 with
       | some e => ((readBlocks st (catRefs scs.hexlen cat)).1, some e)
       | none =>
          if scs.h (readBlocks st (catRefs scs.hexlen cat)).1.flatten = d
          then ((readBlocks st (catRefs scs.hexlen cat)).1, none)
          else ((readBlocks st (catRefs scs.hexlen cat)).1,
                some ScsErr.checksumMismatch)) := by
  unfold Scs.load
  rw [if_pos ⟨hv.1, lineAll_of_hex d hv.2.1 hv.2.2⟩,
    if_pos (pathOk_binName d hv.2.2), hbin, hcat]

lemma hash_valid_digest (scs : Scs) (hg : HashGood scs) (hx : 0 < scs.hexlen)
    (s : Str) :
    (scs.h s).length = scs.hexlen ∧ scs.h s ≠ [] ∧ (scs.h s).all isHexLower = true := by
  refine ⟨(hg s).1, ?_, (hg s).2⟩
  intro hnil
  have := (hg s).1
  rw [hnil] at this
  simp at this
  omega

lemma store_multi_storage (scs : Scs) (b : Str) (hg : HashGood scs)
    (hk : 2 ≤ (chunksOf scs.blocksize b).length) :
    (Scs.store scs scsEmpty b).2
      = Storage.insert ((storeLoop scs (chunksOf scs.blocksize b) [] [] scsEmpty).2.2)
          (scs.h b ++ catSuffix) (catListing scs (chunksOf scs.blocksize b)) := by
  obtain ⟨hbs, _⟩ := blocksize_lt_of_two_chunks scs.blocksize b hk
  have hflat : (chunksOf scs.blocksize b).flatten = b :=
    flatten_chunksOf scs.blocksize hbs b.length b le_rfl
  have hcatlen : ¬ (catListing scs (chunksOf scs.blocksize b)).length
      = scs.hexlen + 1 := by
    rw [length_catListing scs hg]
    intro h
    have h1 : (chunksOf scs.blocksize b).length * (scs.hexlen + 1)
        = 1 * (scs.hexlen + 1) := by
      rw [h]; ring
    have := Nat.eq_of_mul_eq_mul_right (Nat.succ_pos scs.hexlen) h1
    omega
  have hframe : (storeLoop scs (chunksOf scs.blocksize b) [] [] scsEmpty).2.2
      (scs.h b ++ catSuffix) = none := by
    rw [storeLoop_frame scs _ _ _ _ _
      (fun blk _ => fun heq => binName_ne_catName (scs.h blk) (scs.h b) heq.symm)]
    rfl
  rw [store_eq, hflat, if_neg hcatlen, hframe]
  simp only [Option.isSome_none, Bool.false_eq_true, ite_false, if_neg]

/-- C1: for every finite byte sequence `b` (and every block size and every
well-behaved, collision-free hash), storing `b` into an empty storage and
then fully draining a load of the returned digest yields chunks whose
concatenation is exactly `b`, with no error. -/
theorem round_trip (scs : Scs) (b : Str) (hg : HashGood scs)
    (hbs : scs.blocksize ≠ 0) (hx : 0 < scs.hexlen)
    (hinj : ∀ x ∈ b :: chunksOf scs.blocksize b,
            ∀ y ∈ b :: chunksOf scs.blocksize b, scs.h x = scs.h y → x = y) :
    (Scs.load scs (Scs.store scs scsEmpty b).2 (Scs.store scs scsEmpty b).1).1.flatten
      = b ∧
    (Scs.load scs (Scs.store scs scsEmpty b).2 (Scs.store scs scsEmpty b).1).2
      = none := by
  have hflat : (chunksOf scs.blocksize b).flatten = b :=
    flatten_chunksOf scs.blocksize hbs b.length b le_rfl
  have hdig : (Scs.store scs scsEmpty b).1 = scs.h b := by
    rw [store_eq, hflat]
  have hv := hash_valid_digest scs hg hx b
  rcases hcase : chunksOf scs.blocksize b with _ | ⟨blk1, _ | ⟨blk2, rest⟩⟩
  · -- zero blocks: b is empty, represented by an empty catalog
    have hb : b = [] := chunksOf_eq_nil scs.blocksize b hbs hcase
    subst hb
    obtain ⟨hst, _⟩ := store_empty_input scs
    rw [hdig, hst]
    have hbin : Storage.insert scsEmpty (scs.h [] ++ catSuffix) []
        (scs.h [] ++ binSuffix) = none := by
      rw [Storage.insert_other _ _ _ _
        (fun hh => binName_ne_catName (scs.h []) (scs.h []) hh)]
      rfl
    rw [load_cat scs _ _ hv [] hbin (Storage.insert_same _ _ _)]
    simp only [catRefs_nil, readBlocks, List.flatten_nil, ite_true, if_pos]
    exact ⟨trivial, trivial⟩
  · -- exactly one block: b itself is the block, no catalog
    have hb : b = blk1 := by
      rw [hcase] at hflat
      simpa using hflat.symm
    subst hb
    have hbne : b ≠ [] := by
      intro h
      subst h
      rw [chunksOf_nil] at hcase
      exact List.cons_ne_nil _ _ hcase.symm
    have hble : b.length ≤ scs.blocksize := by
      have : b ∈ chunksOf scs.blocksize b := by rw [hcase]; simp
      exact length_le_of_mem_chunksOf scs.blocksize b.length b le_rfl b this
    obtain ⟨hst, _⟩ := store_single_block scs b hg hbne hble
    rw [hdig, hst]
    rw [load_bin scs _ _ hv b (Storage.insert_same _ _ _)]
    simp
  · -- two or more blocks: a catalog lists the block digests
    have hk : 2 ≤ (chunksOf scs.blocksize b).length := by
      rw [hcase]; simp
    obtain ⟨_, hlt⟩ := blocksize_lt_of_two_chunks scs.blocksize b hk
    have hstm := store_multi_storage scs b hg hk
    have hbne : ∀ blk ∈ chunksOf scs.blocksize b, b ≠ blk := by
      intro blk hblk heq
      have h1 : blk.length ≤ scs.blocksize :=
        length_le_of_mem_chunksOf scs.blocksize b.length b le_rfl blk hblk
      rw [← heq] at h1
      omega
    have hbin : (Scs.store scs scsEmpty b).2 (scs.h b ++ binSuffix) = none := by
      rw [hstm, Storage.insert_other _ _ _ _ (binName_ne_catName (scs.h b) (scs.h b))]
      rw [storeLoop_frame scs _ _ _ _ _ ?_]
      · rfl
      · intro blk hblk heq
        have hhb : scs.h b = scs.h blk := binName_inj heq
        have : b = blk := hinj b (List.mem_cons_self _ _) blk
          (List.mem_cons_of_mem _ hblk) hhb
        exact hbne blk hblk this
    have hcat : (Scs.store scs scsEmpty b).2 (scs.h b ++ catSuffix)
        = some (catListing scs (chunksOf scs.blocksize b)) := by
      rw [hstm]
      exact Storage.insert_same _ _ _
    have hread : ∀ blk ∈ chunksOf scs.blocksize b,
        (Scs.store scs scsEmpty b).2 (scs.h blk ++ binSuffix) = some blk := by
      intro blk hblk
      rw [hstm, Storage.insert_other _ _ _ _ (binName_ne_catName (scs.h blk) (scs.h b))]
      exact storeLoop_read scs _ _ _ _ blk hblk
        (fun x hx2 y hy2 => hinj x (List.mem_cons_of_mem _ hx2) y
          (List.mem_cons_of_mem _ hy2))
        (fun x _ => Or.inl rfl)
    rw [hdig]
    rw [load_cat scs _ _ hv _ hbin hcat]
    rw [catRefs_catListing scs hg]
    rw [readBlocks_map_digest scs _ _ hread]
    simp only [hflat, ite_true, if_pos]
    exact ⟨trivial, trivial⟩

lemma store_read (scs : Scs) (st : Storage) (b : Str)
    (hinj : ∀ x ∈ chunksOf scs.blocksize b, ∀ y ∈ chunksOf scs.blocksize b,
      scs.h x = scs.h y → x = y)
    (hgood : ∀ blk ∈ chunksOf scs.blocksize b,
      st (scs.h blk ++ binSuffix) = none ∨ st (scs.h blk ++ binSuffix) = some blk) :
    ∀ blk ∈ chunksOf scs.blocksize b,
      (Scs.store scs st b).2 (scs.h blk ++ binSuffix) = some blk := by
  intro blk hblk
  have hloop : (storeLoop scs (chunksOf scs.blocksize b) [] [] st).2.2
      (scs.h blk ++ binSuffix) = some blk :=
    storeLoop_read scs _ _ _ _ blk hblk hinj hgood
  rw [store_eq]
  dsimp only
  by_cases h1 : (catListing scs (chunksOf scs.blocksize b)).length = scs.hexlen + 1
  · rw [if_pos h1]
    exact hloop
  · rw [if_neg h1]
    by_cases h2 : ((storeLoop scs (chunksOf scs.blocksize b) [] [] st).2.2
        (scs.h (chunksOf scs.blocksize b).flatten ++ catSuffix)).isSome
    · rw [if_pos h2]
      exact hloop
    · rw [if_neg h2]
      rw [Storage.insert_other _ _ _ _ (binName_ne_catName (scs.h blk) _)]
      exact hloop

lemma store_cat_present (scs : Scs) (b : Str)
    (hne : ¬ (catListing scs (chunksOf scs.blocksize b)).length = scs.hexlen + 1) :
    (Scs.store scs scsEmpty b).2
      (scs.h (chunksOf scs.blocksize b).flatten ++ catSuffix)
      = some (catListing scs (chunksOf scs.blocksize b)) := by
  rw [store_eq]
  dsimp only
  rw [if_neg hne]
  have hframe : (storeLoop scs (chunksOf scs.blocksize b) [] [] scsEmpty).2.2
      (scs.h (chunksOf scs.blocksize b).flatten ++ catSuffix) = none := by
    rw [storeLoop_frame scs _ _ _ _ _
      (fun blk _ => fun heq => binName_ne_catName (scs.h blk) _ heq.symm)]
    rfl
  rw [hframe]
  simp only [Option.isSome_none, Bool.false_eq_true, ite_false, if_neg]
  exact Storage.insert_same _ _ _

/-- C8: storing the same byte sequence twice (starting from an empty
storage, with a hash that is collision-free on the blocks of the input)
returns the same digest both times, and the second store leaves the storage
exactly as the first store left it: no object is created anew or
overwritten. -/
theorem store_idempotent (scs : Scs) (b : Str)
    (hinj : ∀ x ∈ chunksOf scs.blocksize b, ∀ y ∈ chunksOf scs.blocksize b,
      scs.h x = scs.h y → x = y) :
    Scs.store scs (Scs.store scs scsEmpty b).2 b = Scs.store scs scsEmpty b := by
  have hread := store_read scs scsEmpty b hinj (fun blk _ => Or.inl rfl)
  have hnoop : (storeLoop scs (chunksOf scs.blocksize b) [] []
      (Scs.store scs scsEmpty b).2).2.2 = (Scs.store scs scsEmpty b).2 :=
    storeLoop_noop scs _ _ _ _ (fun blk hblk => by rw [hread blk hblk]; rfl)
  have hfst : (Scs.store scs (Scs.store scs scsEmpty b).2 b).1
      = (Scs.store scs scsEmpty b).1 := by
    rw [store_eq scs ((Scs.store scs scsEmpty b).2) b, store_eq scs scsEmpty b]
  have hsnd : (Scs.store scs (Scs.store scs scsEmpty b).2 b).2
      = (Scs.store scs scsEmpty b).2 := by
    rw [store_eq scs ((Scs.store scs scsEmpty b).2) b]
    dsimp only
    by_cases h1 : (catListing scs (chunksOf scs.blocksize b)).length = scs.hexlen + 1
    · rw [if_pos h1, hnoop]
    · rw [if_neg h1, hnoop]
      have hcat : ((Scs.store scs scsEmpty b).2
          (scs.h (chunksOf scs.blocksize b).flatten ++ catSuffix)).isSome = true := by
        rw [store_cat_present scs b h1]
        rfl
      rw [if_pos hcat]
  exact Prod.ext hfst hsnd

/-- C7 counterexample: the argument `'abc\n'` is not exactly `hexlen`
lowercase hexadecimal characters (its last character is a newline), yet
`Scs.load` does not fail with the invalid-digest error: the argument has
length `hexlen` and matches `^[0-9a-f]+$` thanks to Python's `$` matching
before the trailing newline, so the load proceeds to the backend, where the
`FileStorage._path` assertion on `'abc\n.bin'` fails. -/
theorem load_invalid_digest_cex :
    ¬ ((['a', 'b', 'c', '\n'] : Str).length = toyScs.hexlen ∧
       (['a', 'b', 'c', '\n'] : Str).all isHexLower = true) ∧
    Scs.load toyScs scsEmpty ['a', 'b', 'c', '\n'] ≠ ([], some ScsErr.invalidDigest) ∧
    Scs.load toyScs scsEmpty ['a', 'b', 'c', '\n'] = ([], some ScsErr.assertionFailed) := by
  decide

/-- C7 (amended): `Scs.load` fails with the invalid-digest error, yielding
no chunk and independently of the storage contents, for every argument
that fails the source's validity test — length different from `hexlen`, or
not a nonempty lowercase-hex run up to one trailing newline.  An argument
of length `hexlen` that is lowercase hex followed by a trailing newline
passes the validity test instead, and fails with the backend's
path-assertion error at the first backend access, again yielding no
chunk. -/
theorem load_invalid_digest (scs : Scs) (st : Storage) (d body : Str)
    (hbad : ¬ (d.length = scs.hexlen ∧ lineAll isHexLower d = true))
    (hnl : body.length + 1 = scs.hexlen ∧ body ≠ [] ∧ body.all isHexLower = true) :
    Scs.load scs st d = ([], some ScsErr.invalidDigest) ∧
    Scs.load scs st (body ++ ['\n']) = ([], some ScsErr.assertionFailed) := by
  constructor
  · unfold Scs.load
    rw [if_neg hbad]
  · have hvalid : (body ++ ['\n']).length = scs.hexlen ∧
        lineAll isHexLower (body ++ ['\n']) = true := by
      constructor
      · rw [List.length_append]
        simpa using hnl.1
      · unfold lineAll chompNewline
        rw [List.getLast?_concat, if_pos rfl, List.dropLast_concat]
        rw [List.isEmpty_eq_false.mpr hnl.2.1, hnl.2.2]
        decide
    have hpath : ¬ pathOk ((body ++ ['\n']) ++ binSuffix) = true := by
      intro hp
      unfold pathOk lineAll at hp
      have hch : chompNewline ((body ++ ['\n']) ++ binSuffix)
          = (body ++ ['\n']) ++ binSuffix := by
        have hlast : ((body ++ ['\n']) ++ binSuffix).getLast? = some 'n' := by
          rw [show (body ++ ['\n']) ++ binSuffix
              = ((body ++ ['\n']) ++ ['.', 'b', 'i']) ++ ['n'] by simp [binSuffix]]
          exact List.getLast?_concat _
        unfold chompNewline
        rw [hlast, if_neg (by decide)]
      rw [hch] at hp
      have hall := (Bool.and_eq_true_iff.mp hp).2
      have hmem : '\n' ∈ (body ++ ['\n']) ++ binSuffix :=
        List.mem_append.mpr (Or.inl (List.mem_append.mpr (Or.inr (by simp))))
      have := List.all_eq_true.mp hall '\n' hmem
      exact absurd this (by decide)
    unfold Scs.load
    rw [if_pos hvalid, if_neg hpath]

lemma gc_no_remove (scs : Scs) (hexdigests : Option (List Str)) (st : Storage)
    (name : Str) (h : uuidTmp name = false) :
    Scs.gc scs hexdigests st name = st name := by
  unfold Scs.gc
  by_cases h1 : name.length = scs.hexlen + 4 ∧ DataName name
  · rw [if_pos h1]
  · rw [if_neg h1, if_neg (by simp [h])]

lemma binName_not_uuidTmp (d : Str) : uuidTmp (d ++ binSuffix) = false := by
  cases hu : uuidTmp (d ++ binSuffix) with
  | false => rfl
  | true =>
      obtain ⟨hlen, hdrop⟩ := uuidTmp_shape _ hu
      rw [chompNewline_binName] at hlen hdrop
      rw [List.length_append] at hlen
      have hbl : binSuffix.length = 4 := rfl
      have hd : d.length = 36 := by omega
      rw [List.drop_left' hd] at hdrop
      exact absurd hdrop (by decide)

lemma catName_not_uuidTmp (d : Str) : uuidTmp (d ++ catSuffix) = false := by
  cases hu : uuidTmp (d ++ catSuffix) with
  | false => rfl
  | true =>
      obtain ⟨hlen, hdrop⟩ := uuidTmp_shape _ hu
      rw [chompNewline_catName] at hlen hdrop
      rw [List.length_append] at hlen
      have hcl : catSuffix.length = 4 := rfl
      have hd : d.length = 36 := by omega
      rw [List.drop_left' hd] at hdrop
      exact absurd hdrop (by decide)

/-- C9 counterexample: `Scs.gc` in no-constraint mode removes the present
name `'f83f48d0-073c-425f-b797-d2d2be42d263.tmp\n'` — the uuid4 layout,
`.tmp`, and a trailing newline, matched because Python's `$` matches before
a final newline — even though that name does not end in `.tmp` and is
therefore not a temporary-object name in the spec's sense. -/
theorem gc_preserves_cex :
    Scs.gc toyScs none
        (Storage.insert scsEmpty ("f83f48d0-073c-425f-b797-d2d2be42d263.tmp\n".toList) [])
        ("f83f48d0-073c-425f-b797-d2d2be42d263.tmp\n".toList) = none ∧
    Storage.insert scsEmpty ("f83f48d0-073c-425f-b797-d2d2be42d263.tmp\n".toList) []
        ("f83f48d0-073c-425f-b797-d2d2be42d263.tmp\n".toList) = some [] ∧
    ("f83f48d0-073c-425f-b797-d2d2be42d263.tmp\n".toList : Str).drop
        (("f83f48d0-073c-425f-b797-d2d2be42d263.tmp\n".toList : Str).length - 4)
      ≠ tmpSuffix := by
  decide

/-- C9 (amended): after `Scs.gc` (in any mode), every name of the form
`digest + '.bin'` or `digest + '.cat'` is untouched, and more generally
every name that does not match the temporary-file regex — the uuid4 layout
followed by `.tmp` and optionally one trailing newline, as Python's `$`
matches — is untouched, unrecognized names included; contrapositively,
only names matching that regex are ever removed (which includes the
newline-terminated variant, a name that does not itself end in `.tmp`). -/
theorem gc_preserves (scs : Scs) (hexdigests : Option (List Str)) (st : Storage)
    (d name : Str) (hnt : uuidTmp name = false) :
    Scs.gc scs hexdigests st (d ++ binSuffix) = st (d ++ binSuffix) ∧
    Scs.gc scs hexdigests st (d ++ catSuffix) = st (d ++ catSuffix) ∧
    Scs.gc scs hexdigests st name = st name :=
  ⟨gc_no_remove scs hexdigests st _ (binName_not_uuidTmp d),
   gc_no_remove scs hexdigests st _ (catName_not_uuidTmp d),
   gc_no_remove scs hexdigests st name hnt⟩

/-- C10 counterexample: the removal predicate of `Scs.gc` is not
"exactly the uuid4 layout followed by `.tmp`": the present name
`'f83f48d0-073c-425f-b797-d2d2be42d263.tmp\n'` is removed although it is
not of that exact form (it carries a trailing newline, which the Python
regex's `$` ignores). -/
theorem gc_removes_iff_cex :
    uuidTmp ("f83f48d0-073c-425f-b797-d2d2be42d263.tmp\n".toList) = true ∧
    Scs.gc toyScs none
        (Storage.insert scsEmpty ("f83f48d0-073c-425f-b797-d2d2be42d263.tmp\n".toList)
          ['x'])
        ("f83f48d0-073c-425f-b797-d2d2be42d263.tmp\n".toList) = none ∧
    ("f83f48d0-073c-425f-b797-d2d2be42d263.tmp\n".toList : Str).take 36 ++ tmpSuffix
      ≠ ("f83f48d0-073c-425f-b797-d2d2be42d263.tmp\n".toList : Str) := by
  decide

/-- C10 (amended): `Scs.gc` removes a name exactly when it matches the
uuid4 textual layout (8-4-4-4-12 lowercase-hex groups joined by hyphens)
followed by `.tmp` and optionally one trailing newline (Python's `$`
matches before a final newline); a `.tmp` name with a different hyphen
grouping (such as the `073c-425f-b797-d2d2be42d263.tmp` of the source's own
test suite) is treated as unknown and never removed, while the full uuid4
layout is removed both with and without the trailing newline. -/
theorem gc_removes_iff (scs : Scs) (hexdigests : Option (List Str)) (st : Storage)
    (name : Str) :
    Scs.gc scs hexdigests st name = (if uuidTmp name = true then none else st name) ∧
    uuidTmp ("073c-425f-b797-d2d2be42d263.tmp".toList) = false ∧
    uuidTmp ("f83f48d0-073c-425f-b797-d2d2be42d263.tmp".toList) = true ∧
    uuidTmp ("f83f48d0-073c-425f-b797-d2d2be42d263.tmp\n".toList) = true := by
  refine ⟨?_, by decide, by decide, by decide⟩
  unfold Scs.gc
  by_cases h1 : name.length = scs.hexlen + 4 ∧ DataName name
  · rw [if_pos h1]
    have h2 : uuidTmp name = false := by
      cases hu : uuidTmp name with
      | false => rfl
      | true => exact absurd h1.2 (uuidTmp_not_dataName name hu)
    rw [h2]
    simp
  · rw [if_neg h1]

/-- C6 counterexample: calling `Scs.gc` with an argument other than the
no-constraint marker `none` is not rejected: no error is possible (the
embedded `Scs.gc` is total and error-free, exactly as the source never
raises), and the call proceeds to remove a temporary file. -/
theorem gc_not_implemented_cex :
    Scs.gc toyScs (some [toyScs.h []])
        (Storage.insert scsEmpty ("f83f48d0-073c-425f-b797-d2d2be42d263.tmp".toList) [])
        ("f83f48d0-073c-425f-b797-d2d2be42d263.tmp".toList) = none ∧
    Storage.insert scsEmpty ("f83f48d0-073c-425f-b797-d2d2be42d263.tmp".toList) []
        ("f83f48d0-073c-425f-b797-d2d2be42d263.tmp".toList) = some [] := by
  decide

/-- C6 (amended): `Scs.gc` ignores its `hexdigests` argument entirely: any
argument — `none` or not — is accepted and produces exactly the behaviour of
the no-constraint mode; no `NotImplementedError` is raised. -/
theorem gc_ignores_arg (scs : Scs) (hexdigests : Option (List Str)) (st : Storage) :
    Scs.gc scs hexdigests st = Scs.gc scs none st := rfl

lemma binName_data (scs : Scs) (d : Str)
    (hv : d.length = scs.hexlen ∧ d ≠ [] ∧ d.all isHexLower = true) :
    (d ++ binSuffix).length = scs.hexlen + 4 ∧ DataName (d ++ binSuffix) := by
  have hbl : binSuffix.length = 4 := rfl
  have hlen : (d ++ binSuffix).length = scs.hexlen + 4 := by
    rw [List.length_append, hv.1, hbl]
  have hsub : (d ++ binSuffix).length - 4 = d.length := by
    rw [List.length_append, hbl]
    omega
  have hpos : 0 < d.length := List.length_pos.mpr hv.2.1
  have hch : chompNewline (d ++ binSuffix) = d ++ binSuffix := chompNewline_binName d
  refine ⟨hlen, ?_, ?_, Or.inl ?_⟩
  · rw [hch, List.length_append, hbl]; omega
  · rw [hch, hsub, List.take_left]
    exact hv.2.2
  · rw [hch, hsub, List.drop_left]

lemma catName_data (scs : Scs) (d : Str)
    (hv : d.length = scs.hexlen ∧ d ≠ [] ∧ d.all isHexLower = true) :
    (d ++ catSuffix).length = scs.hexlen + 4 ∧ DataName (d ++ catSuffix) := by
  have hcl : catSuffix.length = 4 := rfl
  have hlen : (d ++ catSuffix).length = scs.hexlen + 4 := by
    rw [List.length_append, hv.1, hcl]
  have hsub : (d ++ catSuffix).length - 4 = d.length := by
    rw [List.length_append, hcl]
    omega
  have hpos : 0 < d.length := List.length_pos.mpr hv.2.1
  have hch : chompNewline (d ++ catSuffix) = d ++ catSuffix := chompNewline_catName d
  refine ⟨hlen, ?_, ?_, Or.inr ?_⟩
  · rw [hch, List.length_append, hcl]; omega
  · rw [hch, hsub, List.take_left]
    exact hv.2.2
  · rw [hch, hsub, List.drop_left]

lemma checkFile_bin (scs : Scs) (st : Storage) (d : Str)
    (hv : d.length = scs.hexlen ∧ d ≠ [] ∧ d.all isHexLower = true) :
    Scs.checkFile scs st (d ++ binSuffix) = (Scs.load scs st d).2 := by
  have hbl : binSuffix.length = 4 := rfl
  have hsub : (d ++ binSuffix).length - 4 = d.length := by
    rw [List.length_append, hbl]
    omega
  unfold Scs.checkFile
  rw [if_pos (binName_data scs d hv)]
  dsimp only
  rw [if_neg ?_]
  · rw [hsub, List.take_left]
  · intro hh
    rw [hsub, List.drop_left] at hh
    exact absurd hh.1 (by decide)

lemma checkFile_cat (scs : Scs) (st : Storage) (d : Str)
    (hv : d.length = scs.hexlen ∧ d ≠ [] ∧ d.all isHexLower = true)
    (hbin : st (d ++ binSuffix) = none) :
    Scs.checkFile scs st (d ++ catSuffix) = (Scs.load scs st d).2 := by
  have hcl : catSuffix.length = 4 := rfl
  have hsub : (d ++ catSuffix).length - 4 = d.length := by
    rw [List.length_append, hcl]
    omega
  unfold Scs.checkFile
  rw [if_pos (catName_data scs d hv)]
  dsimp only
  rw [if_neg ?_]
  · rw [hsub, List.take_left]
  · intro hh
    rw [hsub, List.take_left, hbin] at hh
    exact absurd hh.2 (by simp)

lemma loadDeps_bin (scs : Scs) (st : Storage) (d : Str)
    (hv : d.length = scs.hexlen ∧ d ≠ [] ∧ d.all isHexLower = true)
    (b0 : Str) (hbin : st (d ++ binSuffix) = some b0) :
    loadDeps scs st d = [d] := by
  unfold loadDeps
  rw [if_pos ⟨hv.1, lineAll_of_hex d hv.2.1 hv.2.2⟩,
    if_pos (pathOk_binName d hv.2.2), hbin]
  rfl

lemma loadDeps_cat (scs : Scs) (st : Storage) (d : Str)
    (hv : d.length = scs.hexlen ∧ d ≠ [] ∧ d.all isHexLower = true)
    (catC : Str) (hbin : st (d ++ binSuffix) = none)
    (hcat : st (d ++ catSuffix) = some catC) :
    loadDeps scs st d = catRefs scs.hexlen catC := by
  unfold loadDeps
  rw [if_pos ⟨hv.1, lineAll_of_hex d hv.2.1 hv.2.2⟩,
    if_pos (pathOk_binName d hv.2.2), hbin, hcat]
  rfl

lemma loadDeps_none (scs : Scs) (st : Storage) (d : Str)
    (hv : d.length = scs.hexlen ∧ d ≠ [] ∧ d.all isHexLower = true)
    (hbin : st (d ++ binSuffix) = none)
    (hcat : st (d ++ catSuffix) = none) :
    loadDeps scs st d = [] := by
  unfold loadDeps
  rw [if_pos ⟨hv.1, lineAll_of_hex d hv.2.1 hv.2.2⟩,
    if_pos (pathOk_binName d hv.2.2), hbin, hcat]
  rfl

/-- C2: if the block file under an existing, previously consistent block
object is overwritten with bytes that no longer hash to its name, then
fully draining `Scs.load` on a digest whose reconstruction depends on that
block (and whose old and new streams do not collide under the hash) yields
the full chunk sequence — the same number of chunks as before — and only
then reports the checksum-mismatch error; checking the object that
represents that digest fails with the same checksum-mismatch condition. -/
theorem corruption_detected (scs : Scs) (st : Storage) (d r blk c2 : Str)
    (chunks : List Str)
    (hload : Scs.load scs st d = (chunks, none))
    (hdep : r ∈ loadDeps scs st d)
    (hold : st (r ++ binSuffix) = some blk)
    (hcons : scs.h blk = r)
    (hmut : scs.h c2 ≠ r)
    (hpair : scs.h ((Scs.load scs (Storage.insert st (r ++ binSuffix) c2) d).1.flatten)
        = scs.h chunks.flatten →
      (Scs.load scs (Storage.insert st (r ++ binSuffix) c2) d).1.flatten
        = chunks.flatten) :
    (Scs.load scs (Storage.insert st (r ++ binSuffix) c2) d).1.length
      = chunks.length ∧
    (Scs.load scs (Storage.insert st (r ++ binSuffix) c2) d).2
      = some ScsErr.checksumMismatch ∧
    Scs.checkFile scs (Storage.insert st (r ++ binSuffix) c2) (objName st d)
      = some ScsErr.checksumMismatch ∧
    Scs.check scs (Storage.insert st (r ++ binSuffix) c2) [objName st d]
      = some ScsErr.checksumMismatch := by
  have hv := load_valid scs st d chunks hload
  cases hbin : st (d ++ binSuffix) with
  | some b0 =>
      rw [loadDeps_bin scs st d hv b0 hbin] at hdep
      have hrd : r = d := by simpa using hdep
      subst hrd
      rw [load_bin scs st r hv b0 hbin] at hload
      have hb0 : scs.h b0 = r := by
        by_cases hh : scs.h b0 = r
        · exact hh
        · rw [if_neg hh] at hload
          exact absurd (congrArg Prod.snd hload) (by simp)
      rw [if_pos hb0] at hload
      have hchunks : chunks = [b0] := (congrArg Prod.fst hload).symm
      have hbin2 : Storage.insert st (r ++ binSuffix) c2 (r ++ binSuffix) = some c2 :=
        Storage.insert_same st _ c2
      have hload2 : Scs.load scs (Storage.insert st (r ++ binSuffix) c2) r
          = ([c2], some ScsErr.checksumMismatch) := by
        rw [load_bin scs _ r hv c2 hbin2, if_neg hmut]
      have hobj : objName st r = r ++ binSuffix := by
        unfold objName
        rw [hbin]
        rfl
      have hcheck : Scs.checkFile scs (Storage.insert st (r ++ binSuffix) c2)
          (r ++ binSuffix) = some ScsErr.checksumMismatch := by
        rw [checkFile_bin scs _ r hv, hload2]
      refine ⟨?_, ?_, ?_, ?_⟩
      · rw [hload2, hchunks]
        rfl
      · rw [hload2]
      · rw [hobj, hcheck]
      · rw [hobj]
        unfold Scs.check
        rw [hcheck]
  | none =>
      cases hcat : st (d ++ catSuffix) with
      | none =>
          rw [loadDeps_none scs st d hv hbin hcat] at hdep
          simp at hdep
      | some catC =>
          rw [loadDeps_cat scs st d hv catC hbin hcat] at hdep
          rw [load_cat scs st d hv catC hbin hcat] at hload
          cases he : (readBlocks st (catRefs scs.hexlen catC)).2 with
          | some e =>
              rw [he] at hload
              exact absurd (congrArg Prod.snd hload) (by simp)
          | none =>
              rw [he] at hload
              have hh : scs.h (readBlocks st (catRefs scs.hexlen catC)).1.flatten
                  = d := by
                by_cases hh : scs.h (readBlocks st (catRefs scs.hexlen catC)).1.flatten
                    = d
                · exact hh
                · rw [if_neg hh] at hload
                  exact absurd (congrArg Prod.snd hload) (by simp)
              rw [if_pos hh] at hload
              have hchunks : (readBlocks st (catRefs scs.hexlen catC)).1 = chunks :=
                congrArg Prod.fst hload
              have hrb : readBlocks st (catRefs scs.hexlen catC) = (chunks, none) := by
                rw [← hchunks, ← he]
              obtain ⟨hall, hmap⟩ := readBlocks_ok st (catRefs scs.hexlen catC)
                chunks hrb
              have hrd : r ≠ d := by
                intro hh2
                rw [hh2, hbin] at hold
                exact Option.noConfusion hold
              have hbin2 : Storage.insert st (r ++ binSuffix) c2 (d ++ binSuffix)
                  = none := by
                rw [Storage.insert_other st _ c2 _
                  (fun hh2 => hrd (binName_inj hh2).symm)]
                exact hbin
              have hcat2 : Storage.insert st (r ++ binSuffix) c2 (d ++ catSuffix)
                  = some catC := by
                rw [Storage.insert_other st _ c2 _
                  (fun hh2 => binName_ne_catName r d hh2.symm)]
                exact hcat
              have hreads2 : ∀ ref ∈ catRefs scs.hexlen catC,
                  Storage.insert st (r ++ binSuffix) c2 (ref ++ binSuffix)
                    = some (if ref = r then c2
                            else (st (ref ++ binSuffix)).getD []) := by
                intro ref href
                by_cases hrr : ref = r
                · subst hrr
                  rw [if_pos rfl]
                  exact Storage.insert_same st _ c2
                · rw [if_neg hrr,
                    Storage.insert_other st _ c2 _ (fun hh2 => hrr (binName_inj hh2))]
                  have hsome := hall ref href
                  cases hsr : st (ref ++ binSuffix) with
                  | none => rw [hsr] at hsome; simp at hsome
                  | some v => rfl
              have hrb2 : readBlocks (Storage.insert st (r ++ binSuffix) c2)
                  (catRefs scs.hexlen catC)
                  = ((catRefs scs.hexlen catC).map (fun ref => if ref = r then c2
                      else (st (ref ++ binSuffix)).getD []), none) :=
                readBlocks_map _ _ (catRefs scs.hexlen catC) hreads2
              have hload2_1 : (Scs.load scs (Storage.insert st (r ++ binSuffix) c2) d).1
                  = (catRefs scs.hexlen catC).map (fun ref => if ref = r then c2
                      else (st (ref ++ binSuffix)).getD []) := by
                rw [load_cat scs _ d hv catC hbin2 hcat2, hrb2]
                dsimp only
                split <;> rfl
              have hc2blk : c2 ≠ blk := fun hh3 => hmut (by rw [hh3, hcons])
              have hmismatch : ¬ scs.h ((catRefs scs.hexlen catC).map
                  (fun ref => if ref = r then c2
                    else (st (ref ++ binSuffix)).getD [])).flatten = d := by
                intro hh2
                have h3 : scs.h ((Scs.load scs (Storage.insert st (r ++ binSuffix) c2)
                    d).1.flatten) = scs.h chunks.flatten := by
                  rw [hload2_1, hh2, ← hchunks, hh]
                have h4 := hpair h3
                rw [hload2_1, hmap] at h4
                refine flatten_map_ne _ _ r (fun x hx => by rw [if_neg hx]) ?_
                  (catRefs scs.hexlen catC) hdep h4
                simp only [if_pos rfl, hold, Option.getD_some]
                exact hc2blk
              have hload2 : Scs.load scs (Storage.insert st (r ++ binSuffix) c2) d
                  = ((catRefs scs.hexlen catC).map (fun ref => if ref = r then c2
                      else (st (ref ++ binSuffix)).getD []),
                     some ScsErr.checksumMismatch) := by
                rw [load_cat scs _ d hv catC hbin2 hcat2, hrb2]
                dsimp only
                rw [if_neg hmismatch]
              have hobj : objName st d = d ++ catSuffix := by
                unfold objName
                rw [hbin]
                rfl
              have hcheck : Scs.checkFile scs (Storage.insert st (r ++ binSuffix) c2)
                  (d ++ catSuffix) = some ScsErr.checksumMismatch := by
                rw [checkFile_cat scs _ d hv hbin2, hload2]
              refine ⟨?_, ?_, ?_, ?_⟩
              · rw [hload2, hmap]
                simp
              · rw [hload2]
              · rw [hobj, hcheck]
              · rw [hobj]
                unfold Scs.check
                rw [hcheck]

/-- Witness for the round-trip theorem at a concrete three-byte input that
spans two blocks of the concrete instance. -/
theorem round_trip_witness :
    (Scs.load toyScs (Scs.store toyScs scsEmpty ['x', 'y', 'z']).2
      (Scs.store toyScs scsEmpty ['x', 'y', 'z']).1).1.flatten = ['x', 'y', 'z'] ∧
    (Scs.load toyScs (Scs.store toyScs scsEmpty ['x', 'y', 'z']).2
      (Scs.store toyScs scsEmpty ['x', 'y', 'z']).1).2 = none :=
  round_trip toyScs ['x', 'y', 'z'] toyGood (by decide) (by decide) (by decide)

/-- Witness for the multi-block catalog theorem at a concrete three-byte
input that chunks into two blocks. -/
theorem store_multi_block_cat_witness :
    (Scs.store toyScs scsEmpty ['a', 'b', 'c']).1 = toyScs.h ['a', 'b', 'c'] ∧
    (Scs.store toyScs scsEmpty ['a', 'b', 'c']).2 (toyScs.h ['a', 'b', 'c'] ++ catSuffix)
      = some (catListing toyScs (chunksOf toyScs.blocksize ['a', 'b', 'c'])) :=
  store_multi_block_cat toyScs ['a', 'b', 'c'] toyGood (by decide)

/-- Witness for the single-block theorem at a concrete one-byte input. -/
theorem store_single_block_witness :
    Scs.store toyScs scsEmpty ['q'] =
      (toyScs.h ['q'], Storage.insert scsEmpty (toyScs.h ['q'] ++ binSuffix) ['q']) ∧
    (Scs.store toyScs scsEmpty ['q']).2 (toyScs.h ['q'] ++ catSuffix) = none :=
  store_single_block toyScs ['q'] toyGood (by decide) (by decide)

/-- Witness for the invalid-digest theorem at a concrete malformed digest
and a concrete hex-plus-newline digest. -/
theorem load_invalid_digest_witness :
    Scs.load toyScs scsEmpty ['z', 'z'] = ([], some ScsErr.invalidDigest) ∧
    Scs.load toyScs scsEmpty (['a', 'b', 'c'] ++ ['\n'])
      = ([], some ScsErr.assertionFailed) :=
  load_invalid_digest toyScs scsEmpty ['z', 'z'] ['a', 'b', 'c']
    (by decide) (by decide)

/-- Witness for the idempotent-store theorem at a concrete three-byte
input. -/
theorem store_idempotent_witness :
    Scs.store toyScs (Scs.store toyScs scsEmpty ['u', 'v', 'w']).2 ['u', 'v', 'w']
      = Scs.store toyScs scsEmpty ['u', 'v', 'w'] :=
  store_idempotent toyScs ['u', 'v', 'w'] (by decide)

/-- Witness for the garbage-collection preservation theorem at a concrete
storage, digest and unrecognized name. -/
theorem gc_preserves_witness :
    Scs.gc toyScs none (Storage.insert scsEmpty ['x'] ['y'])
        (['a', 'b', 'c', 'd'] ++ binSuffix)
      = Storage.insert scsEmpty ['x'] ['y'] (['a', 'b', 'c', 'd'] ++ binSuffix) ∧
    Scs.gc toyScs none (Storage.insert scsEmpty ['x'] ['y'])
        (['a', 'b', 'c', 'd'] ++ catSuffix)
      = Storage.insert scsEmpty ['x'] ['y'] (['a', 'b', 'c', 'd'] ++ catSuffix) ∧
    Scs.gc toyScs none (Storage.insert scsEmpty ['x'] ['y']) ['x']
      = Storage.insert scsEmpty ['x'] ['y'] ['x'] :=
  gc_preserves toyScs none (Storage.insert scsEmpty ['x'] ['y'])
    ['a', 'b', 'c', 'd'] ['x'] (by decide)

/-- Witness for the corruption-detection theorem: a two-block store of
`'abc'` whose first block file is overwritten with `'qq'`. -/
theorem corruption_detected_witness :
    (Scs.load toyScs (Storage.insert (Scs.store toyScs scsEmpty ['a', 'b', 'c']).2
        (toyScs.h ['a', 'b'] ++ binSuffix) ['q', 'q']) (toyScs.h ['a', 'b', 'c'])).1.length
      = ([['a', 'b'], ['c']] : List Str).length ∧
    (Scs.load toyScs (Storage.insert (Scs.store toyScs scsEmpty ['a', 'b', 'c']).2
        (toyScs.h ['a', 'b'] ++ binSuffix) ['q', 'q']) (toyScs.h ['a', 'b', 'c'])).2
      = some ScsErr.checksumMismatch ∧
    Scs.checkFile toyScs (Storage.insert (Scs.store toyScs scsEmpty ['a', 'b', 'c']).2
        (toyScs.h ['a', 'b'] ++ binSuffix) ['q', 'q'])
        (objName (Scs.store toyScs scsEmpty ['a', 'b', 'c']).2 (toyScs.h ['a', 'b', 'c']))
      = some ScsErr.checksumMismatch ∧
    Scs.check toyScs (Storage.insert (Scs.store toyScs scsEmpty ['a', 'b', 'c']).2
        (toyScs.h ['a', 'b'] ++ binSuffix) ['q', 'q'])
        [objName (Scs.store toyScs scsEmpty ['a', 'b', 'c']).2 (toyScs.h ['a', 'b', 'c'])]
      = some ScsErr.checksumMismatch :=
  corruption_detected toyScs (Scs.store toyScs scsEmpty ['a', 'b', 'c']).2
    (toyScs.h ['a', 'b', 'c']) (toyScs.h ['a', 'b']) ['a', 'b'] ['q', 'q']
    [['a', 'b'], ['c']]
    (by decide) (by decide) (by decide) (by decide) (by decide) (by decide)
